import Mathlib

/-!
Verification of the ROADEF2020-QIO outage-maintenance model compiler.

The notebook builds, from a problem instance, a constrained quadratic model:
binary variables `x_i_s` (intervention `i` starts at time `s`), cardinality
constraints, resource-usage constraints, exclusion constraints (quadratic and
linear forms), and a linear risk objective.  This file embeds the pure
computational content of that construction and proves the stated properties.

Conventions of the embedding:
* machine floats of the source become `ℚ`;
* the dense numpy arrays `wl_i_c_t_s`, `rk_r_i_t_s` and the per-instance
  scalars become fields of the structure `Inst`, read as total functions
  (absent entries are zero, as in a zero-initialised array);
* Python `range(a, b)` becomes `List.range' a (b - a)` over `ℕ`;
* Python list accumulation becomes `List` construction in the same order.
-/

/-- A problem instance after loading, mirroring the notebook's arrays:
`I` interventions, `C` resources, `T` time periods, `smax_i` the latest
start per intervention, `d_i_s` durations, `dmax_i` the per-intervention
maximum duration, `wl_i_c_t_s` workloads, `rk_r_i_t_s` risks, `R_t` scenario
counts, and the per-resource usage bounds `rmin_c_t`, `rmax_c_t`. -/
structure Inst where
  I : ℕ
  C : ℕ
  T : ℕ
  smax_i : ℕ → ℕ
  d_i_s : ℕ → ℕ → ℕ
  dmax_i : ℕ → ℕ
  wl_i_c_t_s : ℕ → ℕ → ℕ → ℕ → ℚ
  rk_r_i_t_s : ℕ → ℕ → ℕ → ℕ → ℚ
  R_t : ℕ → ℕ
  rmin_c_t : ℕ → ℕ → ℚ
  rmax_c_t : ℕ → ℕ → ℚ

/-! ## Overlap window calculator (exclusion cells, lines 185-196) -/

/-- The bounded start-time scan of the exclusion cells: Python
`[si for si in range(max(0,t-dmax_i[i]), min(t,smax_i[i])+1) if si+d_i_s[i][si]-1 >= t]`.
Natural subtraction `t - dmax` coincides with `max(0, t-dmax)`, and
`t + 1 ≤ s + d` is the integer condition `s + d - 1 ≥ t`. -/
def coverScan (P : Inst) (i t : ℕ) : List ℕ :=
  (List.range' (t - P.dmax_i i) (min t (P.smax_i i) + 1 - (t - P.dmax_i i))).filter
    (fun s => t + 1 ≤ s + P.d_i_s i s)

/-- Modelled from the spec's words (§4.3): `windowCovering(i, t)` is the set of
starts `s` with `0 ≤ s ≤ maxStart[i]` and `s ≤ t ≤ s + duration[i][s] − 1`,
obtained by scanning all starts `0..maxStart[i]`. -/
def windowCovering (P : Inst) (i t : ℕ) : List ℕ :=
  (List.range (P.smax_i i + 1)).filter
    (fun s => (s : ℤ) ≤ (t : ℤ) ∧ (t : ℤ) ≤ (s : ℤ) + (P.d_i_s i s : ℤ) - 1)

/-- Python `if not [si, sj] in prod: prod += [[si, sj]]`. -/
def dedupInsert (l : List (ℕ × ℕ)) (p : ℕ × ℕ) : List (ℕ × ℕ) :=
  if p ∈ l then l else l ++ [p]

/-- The candidate pairs generated at one conflict time `t`, in loop order. -/
def pairsAt (P : Inst) (i j t : ℕ) : List (ℕ × ℕ) :=
  (coverScan P i t).flatMap (fun si => (coverScan P j t).map (fun sj => (si, sj)))

/-- The accumulated, de-duplicated pair list `prod` of one exclusion record
(lines 186-193 of the quadratic-exclusion cell). -/
def prodPairs (P : Inst) (i j : ℕ) (ts : List ℕ) : List (ℕ × ℕ) :=
  ts.foldl (fun acc t => (pairsAt P i j t).foldl dedupInsert acc) []

/-! ## Exclusion constraint values (quadratic, line 194-195; linear, line 214) -/

/-- Value of the quadratic exclusion constraint body
`sum(x_i_s[i][p[0]] * x_i_s[j][p[1]] for p in prod)` under assignment `x`. -/
def quadExclVal (x : ℕ → ℕ → ℚ) (i j : ℕ) (P : List (ℕ × ℕ)) : ℚ :=
  (P.map (fun p => x i p.1 * x j p.2)).sum

/-- Satisfaction of the family of linear exclusion constraints
`x_i_s[i][p[0]] + x_i_s[j][p[1]] ≤ 1` for every pair `p`. -/
def linExclSat (x : ℕ → ℕ → ℚ) (i j : ℕ) (P : List (ℕ × ℕ)) : Prop :=
  ∀ p ∈ P, x i p.1 + x j p.2 ≤ 1

/-! ## Objective builder (objective cell) and final average risk (last cell) -/

/-- The inner accumulation of the objective cell:
`r_i_s = Σ_{t ∈ range(s, min(s+d_i_s[i][s]+1, T))} Σ_{r ∈ range(R_t[t])} rk/R_t[t]`. -/
def r_i_s (P : Inst) (i s : ℕ) : ℚ :=
  ((List.range' s (min (s + P.d_i_s i s + 1) P.T - s)).map (fun t =>
    ((List.range (P.R_t t)).map (fun r => P.rk_r_i_t_s r i t s / (P.R_t t : ℚ))).sum)).sum

/-- Modelled from the spec's words (§4.5): `riskContribution[i][s] =
Σ_{t=s}^{min(s+duration[i][s], T−1)} Σ_{r=0}^{R[t]-1} risk[r][i][t][s] / R[t]`,
the sum over `t` running inclusively from `s` to `min(s+duration[i][s], T−1)`. -/
def riskContributionSpec (P : Inst) (i s : ℕ) : ℚ :=
  ((List.range' s (min (s + P.d_i_s i s) (P.T - 1) + 1 - s)).map (fun t =>
    ((List.range (P.R_t t)).map (fun r => P.rk_r_i_t_s r i t s / (P.R_t t : ℚ))).sum)).sum

/-- The objective term list `avgrisk`: one entry `((i, s), r_i_s)` for each
`(i, s)` whose contribution is strictly positive (objective cell). -/
def avgrisk (P : Inst) : List ((ℕ × ℕ) × ℚ) :=
  (List.range P.I).flatMap (fun i =>
    (List.range (P.smax_i i + 1)).filterMap (fun s =>
      if 0 < r_i_s P i s then some ((i, s), r_i_s P i s) else none))

/-- The `riskfactors` list of the final cell: `r_i_s * result[x_i_s]` for
every `(i, s)`, no positivity filter. -/
def riskfactors (P : Inst) (result : ℕ → ℕ → ℚ) : List ℚ :=
  (List.range P.I).flatMap (fun i =>
    (List.range (P.smax_i i + 1)).map (fun s => r_i_s P i s * result i s))

/-- The published metric of the final cell: `sum(riskfactors)/T`. -/
def avgRiskFinal (P : Inst) (result : ℕ → ℕ → ℚ) : ℚ :=
  (riskfactors P result).sum / (P.T : ℚ)

/-- Sum of the contributions of the active variables only. -/
def activeContribSum (P : Inst) (result : ℕ → ℕ → ℚ) : ℚ :=
  ((List.range P.I).flatMap (fun i =>
    (List.range (P.smax_i i + 1)).map (fun s =>
      if result i s = 1 then r_i_s P i s else 0))).sum

/-! ## Resource usage constraints (lines 165-176) -/

/-- The index pairs of the non-zero terms collected into `cons` at `(c, t)`:
`i ∈ range(I)`, `s ∈ range(0, min(t, smax_i[i])+1)`, `wl_i_c_t_s[i][c][t][s] > 0`. -/
def cons_42 (P : Inst) (c t : ℕ) : List (ℕ × ℕ) :=
  (List.range P.I).flatMap (fun i =>
    (List.range (min t (P.smax_i i) + 1)).filterMap (fun s =>
      if 0 < P.wl_i_c_t_s i c t s then some (i, s) else none))

/-- The upper-bound test's total workload at `(c, t)`:
`sum(wl_i_c_t_s[i][c][t][s] for i in range(I) for s in range(0, min(t,smax_i[i])+1))`. -/
def totwl (P : Inst) (c t : ℕ) : ℚ :=
  ((List.range P.I).flatMap (fun i =>
    (List.range (min t (P.smax_i i) + 1)).map (fun s => P.wl_i_c_t_s i c t s))).sum

/-- Sum of the workloads of the contributing pairs only. -/
def contribSum (P : Inst) (c t : ℕ) : ℚ :=
  ((cons_42 P c t).map (fun p => P.wl_i_c_t_s p.1 c t p.2)).sum

/-- Side of a resource-usage constraint. -/
inductive RCKind where
  | lower
  | upper
deriving DecidableEq

/-- An emitted resource-usage constraint: its side, resource, time, and
right-hand bound. -/
structure RCons where
  kind : RCKind
  c : ℕ
  t : ℕ
  rhs : ℚ
deriving DecidableEq

/-- The emitted resource constraints, in emission order (lines 165-174):
at each `(c, t)` with a non-empty `cons`, a lower bound when `rmin_c_t > 0`
and an upper bound when the total candidate workload exceeds `rmax_c_t`. -/
def constraints_42 (P : Inst) : List RCons :=
  (List.range P.C).flatMap (fun c => (List.range P.T).flatMap (fun t =>
    if cons_42 P c t ≠ [] then
      (if 0 < P.rmin_c_t c t then [⟨RCKind.lower, c, t, P.rmin_c_t c t⟩] else []) ++
      (if P.rmax_c_t c t < totwl P c t then [⟨RCKind.upper, c, t, P.rmax_c_t c t⟩] else [])
    else []))

/-- The `(c, t)` pairs for which line 176 prints the no-possible-workload
warning: `cons` empty and `rmin_c_t[c][t] > 0`. -/
def warnings_42 (P : Inst) : List (ℕ × ℕ) :=
  (List.range P.C).flatMap (fun c => (List.range P.T).flatMap (fun t =>
    if cons_42 P c t = [] ∧ 0 < P.rmin_c_t c t then [(c, t)] else []))

/-! ## Solution decoding (output cell, lines 250-255) -/

/-- The decoded output: one `(name, calendar time)` entry for every `(i, s)`
with `result[x_i_s] = 1`, in loop order.  `intv` is the startable-intervention
name list and `time` the calendar list, read as in `intv[i]`, `time[s]`. -/
def output (P : Inst) (intv : List String) (time : List Int)
    (result : ℕ → ℕ → ℚ) : List (String × Int) :=
  (List.range P.I).flatMap (fun i =>
    (List.range (P.smax_i i + 1)).filterMap (fun s =>
      if result i s = 1 then some (intv.getD i "", time.getD s 0) else none))

/-! ## Intervention name lookup and exclusion records (lines 93-127) -/

/-- Recursion of `findInterventionByName`: first index whose name matches,
`-1` when none does. -/
def findIntvAux : ℕ → List String → String → ℤ
  | _, [], _ => -1
  | k, n :: rest, name => if n = name then (k : ℤ) else findIntvAux (k + 1) rest name

/-- The notebook's `findInterventionByName`: linear scan of `intv`,
returning the index of the first match and `-1` when the name is absent. -/
def findInterventionByName (intv : List String) (name : String) : ℤ :=
  findIntvAux 0 intv name

/-- One record of `exc_e`: exclusion name, the two looked-up intervention
indices (possibly `-1`), and the zero-based conflict times. -/
structure ExcRec where
  e : String
  i : ℤ
  j : ℤ
  t : List ℤ
deriving DecidableEq

/-- The exclusion-record list `exc_e` (lines 120-126): for each raw exclusion
`(name, intA, intB, season)`, when the season's time list is non-empty, keep
a record with the looked-up indices — whether or not the lookups succeeded —
and the conflict times shifted by one. -/
def exc_e (intv : List String) (seasons : String → List Int)
    (excl : List (String × String × String × String)) : List ExcRec :=
  excl.filterMap (fun ex =>
    if seasons ex.2.2.2 ≠ [] then
      some ⟨ex.1, findInterventionByName intv ex.2.1,
            findInterventionByName intv ex.2.2.1,
            (seasons ex.2.2.2).map (fun t => t - 1)⟩
    else none)

/-! ## Calendar construction (lines 45-50) -/

/-- The horizon list `time` (lines 45-50): the concatenation of all season
value lists, sorted ascending; `T` is its length.  Python's `list.sort()` is
modelled by insertion sort, which agrees with it on integer lists. -/
def time_of (seasons : List (List Int)) : List Int :=
  (seasons.flatten).insertionSort (fun a b => a ≤ b)

/-! ## Scenario-count derivation (lines 82-85) -/

/-- One step of the `R_t` update for a time step: state is the current count
and the number of warnings printed so far.  Python:
`if R_t == 0 or R_t == len: R_t = len else: warn`. -/
def rtStep (st : ℕ × ℕ) (len : ℕ) : ℕ × ℕ :=
  if st.1 = 0 ∨ st.1 = len then (len, st.2) else (st.1, st.2 + 1)

/-- Folding the `R_t` update over the lengths of the risk lists encountered
for one time step, in encounter order, starting from the zero-initialised
count. -/
def rtRun (ls : List ℕ) : ℕ × ℕ :=
  ls.foldl rtStep (0, 0)

/-- The derived scenario count for a time step. -/
def R_t_of (ls : List ℕ) : ℕ :=
  (rtRun ls).1

/-- The number of `R_t not unique` warnings printed for a time step. -/
def rtWarnCount (ls : List ℕ) : ℕ :=
  (rtRun ls).2

/-- First non-zero element of a list (`0` when there is none). -/
def firstNZ : List ℕ → ℕ
  | [] => 0
  | a :: l => if a = 0 then firstNZ l else a

/-! ## Startable-intervention filter (lines 57-62) -/

/-- The list `intv` of startable interventions: names whose `tmax ≤ T`
(line 59), in input order. -/
def intv_of (names : List String) (tmax : String → ℕ) (T : ℕ) : List String :=
  names.filter (fun k => decide (tmax k ≤ T))

/-- The names for which line 62 logs the cannot-start warning. -/
def warn_of (names : List String) (tmax : String → ℕ) (T : ℕ) : List String :=
  names.filter (fun k => decide (¬ tmax k ≤ T))

/-- The label of the cardinality constraint of one intervention (line 157). -/
def mkTaskLabel (n : String) : String :=
  "Task_" ++ n ++ "_starts_exactly_once"

/-- The labels of the emitted cardinality constraints, one per startable
intervention (lines 156-158). -/
def cardinalityLabels (intv : List String) : List String :=
  intv.map mkTaskLabel

/-! ## General list lemmas -/

/-- A sum of a map is zero exactly when every mapped value is zero, when all
mapped values are non-negative. -/
lemma sum_map_eq_zero_iff_of_nonneg {α : Type} (l : List α) (f : α → ℚ)
    (h : ∀ a ∈ l, 0 ≤ f a) : (l.map f).sum = 0 ↔ ∀ a ∈ l, f a = 0 := by
  induction l with
  | nil => simp
  | cons a l ih =>
    simp only [List.map_cons, List.sum_cons, List.mem_cons]
    have ha : 0 ≤ f a := h a (by simp)
    have hl : ∀ b ∈ l, 0 ≤ f b := fun b hb => h b (by simp [hb])
    have hsum : 0 ≤ (l.map f).sum := by
      apply List.sum_nonneg
      intro x hx
      obtain ⟨b, hb, rfl⟩ := List.mem_map.mp hx
      exact hl b hb
    constructor
    · intro h0
      have hfa : f a = 0 := by linarith [(by linarith : f a ≤ 0)]
      have hrest : (l.map f).sum = 0 := by linarith
      rcases (ih hl).mp hrest with hall
      rintro b (rfl | hb)
      · exact hfa
      · exact hall b hb
    · intro hall
      have hfa : f a = 0 := hall a (Or.inl rfl)
      have : ∀ b ∈ l, f b = 0 := fun b hb => hall b (Or.inr hb)
      rw [hfa, (ih hl).mpr this, add_zero]

/-- A `flatMap` sums like the sum of the per-element sums. -/
lemma sum_flatMap_eq {α : Type} (l : List α) (f : α → List ℚ) :
    (l.flatMap f).sum = (l.map (fun a => (f a).sum)).sum := by
  rw [List.flatMap_def, List.sum_flatten, List.map_map]
  rfl

/-- Restricting a sum to the entries kept by the positivity filter does not
change it when all entries are non-negative. -/
lemma sum_filterMap_pos {f : ℕ → ℚ} (l : List ℕ) (h : ∀ a ∈ l, 0 ≤ f a) :
    ((l.filterMap (fun s => if 0 < f s then some s else none)).map f).sum
      = (l.map f).sum := by
  induction l with
  | nil => simp
  | cons a l ih =>
    have ha : 0 ≤ f a := h a (by simp)
    have hl : ∀ b ∈ l, 0 ≤ f b := fun b hb => h b (by simp [hb])
    by_cases hp : 0 < f a
    · rw [List.filterMap_cons_some (by rw [if_pos hp])]
      simp only [List.map_cons, List.sum_cons, ih hl]
    · have hz : f a = 0 := le_antisymm (not_lt.mp hp) ha
      rw [List.filterMap_cons_none (by rw [if_neg hp])]
      simp only [List.map_cons, List.sum_cons, ih hl, hz, zero_add]

/-- A `flatMap` collapses to a `map` when every block is a singleton. -/
lemma flatMap_eq_map_of_single {α β : Type} (l : List α) (f : α → List β) (g : α → β)
    (h : ∀ a ∈ l, f a = [g a]) : l.flatMap f = l.map g := by
  induction l with
  | nil => simp
  | cons a l ih =>
    simp only [List.flatMap_cons, List.map_cons, h a (by simp)]
    rw [ih (fun b hb => h b (by simp [hb]))]
    rfl

/-- A `filterMap` that keeps exactly one element of a duplicate-free list is
that element's image. -/
lemma filterMap_eq_single {α β : Type} [DecidableEq α] (l : List α) (f : α → Option β)
    (k : α) (v : β) (hk : k ∈ l) (hv : f k = some v)
    (hother : ∀ a ∈ l, a ≠ k → f a = none) (hnd : l.Nodup) : l.filterMap f = [v] := by
  induction l with
  | nil => cases hk
  | cons a l ih =>
    by_cases hak : a = k
    · have hnone : ∀ b ∈ l, f b = none := by
        intro b hb
        have hbk : b ≠ k := by
          intro h
          apply (List.nodup_cons.mp hnd).1
          rw [hak, ← h]
          exact hb
        exact hother b (by simp [hb]) hbk
      rw [List.filterMap_cons_some (by rw [hak, hv]), List.filterMap_eq_nil_iff.mpr hnone]
    · have hk' : k ∈ l := by
        rcases List.mem_cons.mp hk with h | h
        · exact absurd h.symm hak
        · exact h
      rw [List.filterMap_cons_none (hother a (by simp) hak)]
      exact ih hk' (fun b hb hbk => hother b (by simp [hb]) hbk) (List.nodup_cons.mp hnd).2

/-! ## Claim C5: quadratic and linear exclusion forms are equisatisfiable -/

/-- For `a, b ∈ {0, 1}`, the product vanishes exactly when the sum is at
most one. -/
lemma boolish_mul_eq_zero_iff {a b : ℚ} (ha : a = 0 ∨ a = 1) (hb : b = 0 ∨ b = 1) :
    a * b = 0 ↔ a + b ≤ 1 := by
  rcases ha with rfl | rfl <;> rcases hb with rfl | rfl <;> norm_num

/-- C5 (algebraic_relational): for every exclusion pair set `P` and every
boolean assignment `x`, the quadratic exclusion constraint value
`Σ_{(s_i,s_j) ∈ P} x[i][s_i]·x[j][s_j]` is `0` if and only if every linear
exclusion constraint `x[i][s_i] + x[j][s_j] ≤ 1` holds: the two formulations
are equisatisfiable over boolean variables. -/
theorem quad_lin_exclusion_equisat (x : ℕ → ℕ → ℚ) (i j : ℕ) (P : List (ℕ × ℕ))
    (hx : ∀ a b, x a b = 0 ∨ x a b = 1) :
    quadExclVal x i j P = 0 ↔ linExclSat x i j P := by
  unfold quadExclVal linExclSat
  rw [sum_map_eq_zero_iff_of_nonneg]
  · constructor
    · intro h p hp
      exact (boolish_mul_eq_zero_iff (hx i p.1) (hx j p.2)).mp (h p hp)
    · intro h p hp
      exact (boolish_mul_eq_zero_iff (hx i p.1) (hx j p.2)).mpr (h p hp)
  · intro p _
    rcases hx i p.1 with h1 | h1 <;> rcases hx j p.2 with h2 | h2 <;>
      rw [h1, h2] <;> norm_num

/-- Witness for C5 at a concrete assignment and pair set. -/
theorem quad_lin_exclusion_equisat_witness :
    quadExclVal (fun _ _ => 0) 0 1 [(0, 0), (0, 1)] = 0
      ↔ linExclSat (fun _ _ => 0) 0 1 [(0, 0), (0, 1)] :=
  quad_lin_exclusion_equisat (fun _ _ => 0) 0 1 [(0, 0), (0, 1)]
    (fun _ _ => Or.inl rfl)

/-! ## Claim C9: scenario-count derivation -/

/-- Once the running count is non-zero it never changes. -/
lemma foldl_rtStep_fst (ls : List ℕ) (c w : ℕ) (hc : c ≠ 0) :
    (ls.foldl rtStep (c, w)).1 = c := by
  induction ls generalizing w with
  | nil => rfl
  | cons a l ih =>
    rw [List.foldl_cons]
    by_cases h : c = 0 ∨ c = a
    · have hca : c = a := h.resolve_left hc
      rw [rtStep, if_pos h]
      subst hca
      exact ih w
    · rw [rtStep, if_neg h]
      exact ih (w + 1)

/-- The derived count is the first non-zero length encountered. -/
lemma R_t_of_eq_firstNZ (ls : List ℕ) : R_t_of ls = firstNZ ls := by
  unfold R_t_of rtRun
  induction ls with
  | nil => rfl
  | cons a l ih =>
    rw [List.foldl_cons]
    by_cases ha : a = 0
    · subst ha
      have h0 : rtStep (0, 0) 0 = (0, 0) := by rw [rtStep, if_pos (Or.inl rfl)]
      rw [h0, firstNZ, if_pos rfl]
      exact ih
    · have h1 : rtStep (0, 0) a = (a, 0) := by rw [rtStep, if_pos (Or.inl rfl)]
      rw [h1, firstNZ, if_neg ha]
      exact foldl_rtStep_fst l a 0 ha

/-- C9 counterexample (closed): when the first risk list encountered for a
time step has length `0`, the derived count is the length of the *second*
list (`2`), not the first (`0`), and the differing second length produces no
warning — contradicting both halves of the claim. -/
theorem scenario_count_first_assignment_fails :
    R_t_of [0, 2] = 2 ∧ [0, 2].head? = some 0 ∧ (2 : ℕ) ≠ 0
      ∧ rtWarnCount [0, 2] = 0 := by decide

/-- C9 as amended: the derived scenario count `R[t]` equals the first
*non-zero* length encountered for `t` (a zero-length list is
indistinguishable from the unset state `0`); once the count is set to a
non-zero value, every subsequently encountered list whose length differs
raises one warning and leaves the count unchanged, and a matching length
leaves the count unchanged without a warning. -/
theorem scenario_count_resolution (ls : List ℕ) (st : ℕ × ℕ) (len : ℕ) :
    R_t_of ls = firstNZ ls
      ∧ (st.1 ≠ 0 → len ≠ st.1 → rtStep st len = (st.1, st.2 + 1))
      ∧ (st.1 = 0 ∨ st.1 = len → rtStep st len = (len, st.2)) := by
  refine ⟨R_t_of_eq_firstNZ ls, ?_, ?_⟩
  · intro h1 h2
    rw [rtStep, if_neg]
    rintro (h | h)
    · exact h1 h
    · exact h2 h.symm
  · intro h
    rw [rtStep, if_pos h]

/-- Witness for C9 at concrete inputs: the count resolves to the first
non-zero length, and a differing later length warns without changing it. -/
theorem scenario_count_resolution_witness :
    R_t_of [0, 5, 3] = firstNZ [0, 5, 3] ∧ rtStep (5, 0) 3 = (5, 1) := by
  refine ⟨(scenario_count_resolution [0, 5, 3] (5, 0) 3).1, ?_⟩
  have h := (scenario_count_resolution [0, 5, 3] (5, 0) 3).2.1 (by decide) (by decide)
  simpa using h

/-! ## Claim C8: horizon construction -/

/-- C8 counterexample (closed): with the calendar value `2` occurring in two
seasons, the constructed horizon keeps the duplicate: it has length `4`
although only `3` distinct values exist, and indices `1` and `2` both map to
the value `2`, so the index-to-value mapping is not injective and `T` is not
the number of distinct calendar values. -/
theorem horizon_not_deduplicated :
    time_of [[1, 2], [2, 3]] = [1, 2, 2, 3]
      ∧ (time_of [[1, 2], [2, 3]]).length = 4
      ∧ ¬ (time_of [[1, 2], [2, 3]]).Nodup
      ∧ (time_of [[1, 2], [2, 3]]).getD 1 0 = (time_of [[1, 2], [2, 3]]).getD 2 0 := by
  decide

/-- C8 as amended: the horizon is the *sorted concatenation* of all season
value lists with duplicates retained — a non-decreasing permutation of the
concatenation, with `T` equal to the total number of season values counted
with multiplicity; the index-to-value mapping is strictly monotonic (hence
bijective onto the distinct values) only when no calendar value occurs twice
across the seasons' lists. -/
theorem horizon_sorted_concatenation (seasons : List (List Int)) :
    List.Sorted (fun a b => a ≤ b) (time_of seasons)
      ∧ (time_of seasons).Perm seasons.flatten
      ∧ (time_of seasons).length = seasons.flatten.length
      ∧ (seasons.flatten.Nodup → List.Sorted (fun a b => a < b) (time_of seasons)) := by
  have hperm : (time_of seasons).Perm seasons.flatten :=
    List.perm_insertionSort (fun a b => a ≤ b) seasons.flatten
  have hsorted : List.Sorted (fun a b => a ≤ b) (time_of seasons) :=
    List.sorted_insertionSort (fun a b => a ≤ b) seasons.flatten
  refine ⟨hsorted, hperm, hperm.length_eq, ?_⟩
  intro hnd
  exact List.Sorted.lt_of_le hsorted (hperm.nodup_iff.mpr hnd)

/-- Witness for C8 on a concrete duplicate-free season family. -/
theorem horizon_sorted_concatenation_witness :
    List.Sorted (fun a b => (a : Int) ≤ b) (time_of [[3, 1], [2]])
      ∧ (time_of [[3, 1], [2]]).Perm ([[3, 1], [2]] : List (List Int)).flatten
      ∧ (time_of [[3, 1], [2]]).length = ([[3, 1], [2]] : List (List Int)).flatten.length
      ∧ List.Sorted (fun a b => (a : Int) < b) (time_of [[3, 1], [2]]) :=
  ⟨(horizon_sorted_concatenation [[3, 1], [2]]).1,
   (horizon_sorted_concatenation [[3, 1], [2]]).2.1,
   (horizon_sorted_concatenation [[3, 1], [2]]).2.2.1,
   (horizon_sorted_concatenation [[3, 1], [2]]).2.2.2 (by decide)⟩

/-! ## Claim C7: exclusions with unresolved intervention names -/

/-- C7 (code evaluation at the failing input): an exclusion record naming the
unknown intervention `"Ghost"` is *not* dropped — `findInterventionByName`
returns the sentinel `-1` and `exc_e` keeps the record with `i = -1`, an
index the downstream constraint generation then uses (in Python, `-1`
silently denotes the *last* intervention). -/
theorem unresolved_exclusion_is_kept :
    findInterventionByName ["I1"] "Ghost" = -1
      ∧ exc_e ["I1"] (fun _ => [1]) [("E1", ("Ghost", ("I1", "S")))]
          = [⟨"E1", -1, 0, [0]⟩]
      ∧ (exc_e ["I1"] (fun _ => [1]) [("E1", ("Ghost", ("I1", "S")))]).length = 1 := by
  decide

/-! ## Claim C10: interventions beyond the horizon are excluded -/

/-- Cardinality-constraint labels determine the intervention name. -/
lemma mkTaskLabel_inj {a b : String} (h : mkTaskLabel a = mkTaskLabel b) : a = b := by
  unfold mkTaskLabel at h
  have hd := congrArg String.data h
  simp only [String.data_append] at hd
  rw [List.append_assoc, List.append_assoc] at hd
  have h1 := List.append_cancel_left hd
  exact String.ext (List.append_cancel_right h1)

/-- C10 (error_handling): an intervention whose deadline `tmax` exceeds the
horizon `T` is excluded from the model entirely: it is not in the startable
list `intv`, so no variable row, no cardinality constraint (its label is
absent) and no workload/risk contribution — all of which are indexed by
positions of `intv` — is created for it; the non-fatal warning branch
records it, and every intervention with `tmax ≤ T` is still kept, so model
construction completes for the remaining interventions. -/
theorem beyond_horizon_excluded (names : List String) (tmax : String → ℕ) (T : ℕ)
    (k : String) (hk : k ∈ names) (h : T < tmax k) :
    k ∉ intv_of names tmax T
      ∧ k ∈ warn_of names tmax T
      ∧ mkTaskLabel k ∉ cardinalityLabels (intv_of names tmax T)
      ∧ (∀ idx, idx < (intv_of names tmax T).length →
          (intv_of names tmax T).getD idx "" ≠ k)
      ∧ (∀ k2 ∈ names, tmax k2 ≤ T → k2 ∈ intv_of names tmax T) := by
  have hnotin : k ∉ intv_of names tmax T := by
    intro hmem
    have := (List.mem_filter.mp hmem).2
    simp only [decide_eq_true_eq] at this
    omega
  refine ⟨hnotin, ?_, ?_, ?_, ?_⟩
  · apply List.mem_filter.mpr
    refine ⟨hk, ?_⟩
    simp only [decide_eq_true_eq]
    omega
  · intro hmem
    obtain ⟨a, ha, hlab⟩ := List.mem_map.mp hmem
    exact hnotin (mkTaskLabel_inj hlab ▸ ha)
  · intro idx hidx heq
    apply hnotin
    rw [← heq, List.getD_eq_getElem _ _ hidx]
    exact List.getElem_mem hidx
  · intro k2 hk2 hle
    apply List.mem_filter.mpr
    exact ⟨hk2, by simp only [decide_eq_true_eq]; exact hle⟩

/-- Witness for C10 at a concrete input: `"A"` with `tmax = 5 > T = 3` is
excluded and warned about while `"B"` with `tmax = 1` is kept. -/
theorem beyond_horizon_excluded_witness :
    "A" ∉ intv_of ["A", "B"] (fun n => if n = "A" then 5 else 1) 3
      ∧ "A" ∈ warn_of ["A", "B"] (fun n => if n = "A" then 5 else 1) 3
      ∧ mkTaskLabel "A"
          ∉ cardinalityLabels (intv_of ["A", "B"] (fun n => if n = "A" then 5 else 1) 3)
      ∧ (∀ idx, idx < (intv_of ["A", "B"] (fun n => if n = "A" then 5 else 1) 3).length →
          (intv_of ["A", "B"] (fun n => if n = "A" then 5 else 1) 3).getD idx "" ≠ "A")
      ∧ (∀ k2 ∈ ["A", "B"], (fun n => if n = "A" then 5 else 1) k2 ≤ 3 →
          k2 ∈ intv_of ["A", "B"] (fun n => if n = "A" then 5 else 1) 3) :=
  beyond_horizon_excluded ["A", "B"] (fun n => if n = "A" then 5 else 1) 3 "A"
    (by decide) (by decide)

/-! ## Claims C4 and C3: overlap windows and exclusion pair sets -/

/-- The bounded scan agrees with the full scan of `0..smax`, provided `dmax`
bounds every duration on the feasible starts (which `dmax_i = max(d_i_s[i])`
guarantees in the notebook). -/
lemma mem_coverScan (P : Inst) (i : ℕ)
    (hd : ∀ s, s ≤ P.smax_i i → P.d_i_s i s ≤ P.dmax_i i) :
    ∀ t s, (s ∈ coverScan P i t ↔ s ∈ windowCovering P i t) := by
  intro t s
  unfold coverScan windowCovering
  simp only [List.mem_filter, List.mem_range'_1, List.mem_range, decide_eq_true_eq]
  constructor
  · rintro ⟨⟨hlo, hhi⟩, hcov⟩
    omega
  · rintro ⟨hs, h1, h2⟩
    have hds := hd s (by omega)
    omega

/-- Membership after folding `dedupInsert` over a list of candidates. -/
lemma mem_foldl_dedupInsert (l acc : List (ℕ × ℕ)) (p : ℕ × ℕ) :
    p ∈ l.foldl dedupInsert acc ↔ p ∈ acc ∨ p ∈ l := by
  induction l generalizing acc with
  | nil => simp
  | cons a l ih =>
    rw [List.foldl_cons, ih]
    unfold dedupInsert
    by_cases h : a ∈ acc
    · rw [if_pos h]
      constructor
      · rintro (h' | h')
        · exact Or.inl h'
        · exact Or.inr (List.mem_cons_of_mem a h')
      · rintro (h' | h')
        · exact Or.inl h'
        · rcases List.mem_cons.mp h' with rfl | h''
          · exact Or.inl h
          · exact Or.inr h''
    · rw [if_neg h]
      simp only [List.mem_append, List.mem_singleton, List.mem_cons]
      tauto

/-- Folding `dedupInsert` preserves duplicate-freedom. -/
lemma nodup_foldl_dedupInsert (l acc : List (ℕ × ℕ)) (h : acc.Nodup) :
    (l.foldl dedupInsert acc).Nodup := by
  induction l generalizing acc with
  | nil => exact h
  | cons a l ih =>
    rw [List.foldl_cons]
    apply ih
    unfold dedupInsert
    by_cases hmem : a ∈ acc
    · rw [if_pos hmem]
      exact h
    · rw [if_neg hmem]
      rw [List.nodup_append]
      refine ⟨h, List.nodup_singleton a, ?_⟩
      intro x hx hx'
      rw [List.mem_singleton] at hx'
      subst hx'
      exact hmem hx

/-- Membership in the accumulated pair list of one exclusion record. -/
lemma mem_prodPairs_aux (P : Inst) (i j : ℕ) (ts acc : List _) (p : ℕ × ℕ) :
    p ∈ ts.foldl (fun acc t => (pairsAt P i j t).foldl dedupInsert acc) acc ↔
      p ∈ acc ∨ ∃ t ∈ ts, p ∈ pairsAt P i j t := by
  induction ts generalizing acc with
  | nil => simp
  | cons t ts ih =>
    rw [List.foldl_cons, ih, mem_foldl_dedupInsert]
    constructor
    · rintro ((h | h) | ⟨t', ht', hp⟩)
      · exact Or.inl h
      · exact Or.inr ⟨t, List.mem_cons_self t ts, h⟩
      · exact Or.inr ⟨t', List.mem_cons_of_mem t ht', hp⟩
    · rintro (h | ⟨t', ht', hp⟩)
      · exact Or.inl (Or.inl h)
      · rcases List.mem_cons.mp ht' with rfl | h''
        · exact Or.inl (Or.inr hp)
        · exact Or.inr ⟨t', h'', hp⟩

/-- The accumulated pair list is duplicate-free. -/
lemma nodup_prodPairs_aux (P : Inst) (i j : ℕ) (ts acc : List _) (h : acc.Nodup) :
    (ts.foldl (fun acc t => (pairsAt P i j t).foldl dedupInsert acc) acc).Nodup := by
  induction ts generalizing acc with
  | nil => exact h
  | cons t ts ih =>
    rw [List.foldl_cons]
    exact ih _ (nodup_foldl_dedupInsert _ _ h)

/-- The candidate pairs of one conflict time are the products of the two
bounded scans. -/
lemma mem_pairsAt (P : Inst) (i j t : ℕ) (p : ℕ × ℕ) :
    p ∈ pairsAt P i j t ↔ p.1 ∈ coverScan P i t ∧ p.2 ∈ coverScan P j t := by
  obtain ⟨a, b⟩ := p
  unfold pairsAt
  simp only [List.mem_flatMap, List.mem_map, Prod.mk.injEq]
  constructor
  · rintro ⟨si, hsi, sj, hsj, h1, h2⟩
    subst h1
    subst h2
    exact ⟨hsi, hsj⟩
  · rintro ⟨ha, hb⟩
    exact ⟨a, ha, b, hb, rfl, rfl⟩

/-- The spec's synthetic intervention: duration 3 at every start in `[0,5]`. -/
def synthInst : Inst :=
  { I := 1, C := 0, T := 10, smax_i := fun _ => 5, d_i_s := fun _ _ => 3,
    dmax_i := fun _ => 3, wl_i_c_t_s := fun _ _ _ _ => 0,
    rk_r_i_t_s := fun _ _ _ _ => 0, R_t := fun _ => 0,
    rmin_c_t := fun _ _ => 0, rmax_c_t := fun _ _ => 0 }

/-- C4 (refinement_equivalence): the bounded search over
`s ∈ [max(0, t − dmax[i]), min(t, maxStart[i])]`, keeping the starts with
`s + duration[i][s] − 1 ≥ t`, computes exactly the set `windowCovering(i, t)`
obtained by scanning all starts `0..maxStart[i]`, whenever `dmax[i]` bounds
every feasible duration (as `dmax_i = max(d_i_s[i])` does); in particular,
for the synthetic intervention with duration 3 at every start of `[0,5]`,
both computations at `t = 4` give `{2, 3, 4}`. -/
theorem window_scan_refines_full_scan :
    (∀ (P : Inst) (i t : ℕ),
        (∀ s, s ≤ P.smax_i i → P.d_i_s i s ≤ P.dmax_i i) →
        ∀ s, (s ∈ coverScan P i t ↔ s ∈ windowCovering P i t))
      ∧ coverScan synthInst 0 4 = [2, 3, 4]
      ∧ windowCovering synthInst 0 4 = [2, 3, 4] := by
  refine ⟨?_, by decide, by decide⟩
  intro P i t hd s
  exact mem_coverScan P i hd t s

/-- Witness for C4 at the synthetic intervention of the spec. -/
theorem window_scan_refines_full_scan_witness :
    (3 ∈ coverScan synthInst 0 4 ↔ 3 ∈ windowCovering synthInst 0 4) :=
  window_scan_refines_full_scan.1 synthInst 0 4 (by decide) 3

/-- C3 (functional_correctness): for every exclusion record `(i, j, ts)` the
quadratic constraint's product-term list `prod` contains exactly one entry
per pair of the de-duplicated union, over `t ∈ ts`, of
`windowCovering(i, t) × windowCovering(j, t)`: the list is duplicate-free,
and a pair belongs to it exactly when some conflict time yields it — so a
pair reachable via two conflict times contributes a single term. -/
theorem exclusion_pairs_dedup_union (P : Inst) (i j : ℕ) (ts : List ℕ)
    (hdi : ∀ s, s ≤ P.smax_i i → P.d_i_s i s ≤ P.dmax_i i)
    (hdj : ∀ s, s ≤ P.smax_i j → P.d_i_s j s ≤ P.dmax_i j) :
    (prodPairs P i j ts).Nodup
      ∧ ∀ p : ℕ × ℕ, (p ∈ prodPairs P i j ts ↔
          ∃ t ∈ ts, p.1 ∈ windowCovering P i t ∧ p.2 ∈ windowCovering P j t) := by
  constructor
  · exact nodup_prodPairs_aux P i j ts [] List.nodup_nil
  · intro p
    unfold prodPairs
    rw [mem_prodPairs_aux]
    simp only [List.not_mem_nil, false_or]
    constructor
    · rintro ⟨t, ht, hp⟩
      rw [mem_pairsAt] at hp
      exact ⟨t, ht, (mem_coverScan P i hdi t p.1).mp hp.1,
        (mem_coverScan P j hdj t p.2).mp hp.2⟩
    · rintro ⟨t, ht, h1, h2⟩
      exact ⟨t, ht, (mem_pairsAt P i j t p).mpr
        ⟨(mem_coverScan P i hdi t p.1).mpr h1, (mem_coverScan P j hdj t p.2).mpr h2⟩⟩

/-- Witness for C3 on the synthetic intervention excluded against itself at
conflict time 4. -/
theorem exclusion_pairs_dedup_union_witness :
    (prodPairs synthInst 0 0 [4]).Nodup
      ∧ ((2, 3) ∈ prodPairs synthInst 0 0 [4] ↔
          ∃ t ∈ [4], 2 ∈ windowCovering synthInst 0 t ∧ 3 ∈ windowCovering synthInst 0 t) :=
  ⟨(exclusion_pairs_dedup_union synthInst 0 0 [4] (by decide) (by decide)).1,
   (exclusion_pairs_dedup_union synthInst 0 0 [4] (by decide) (by decide)).2 (2, 3)⟩

/-! ## Claim C1: objective coefficients and the published average risk -/

/-- With non-negative risk data every contribution is non-negative. -/
lemma r_i_s_nonneg (P : Inst) (hrk : ∀ r i t s, 0 ≤ P.rk_r_i_t_s r i t s) (i s : ℕ) :
    0 ≤ r_i_s P i s := by
  unfold r_i_s
  apply List.sum_nonneg
  intro x hx
  obtain ⟨t, _, rfl⟩ := List.mem_map.mp hx
  apply List.sum_nonneg
  intro y hy
  obtain ⟨r, _, rfl⟩ := List.mem_map.mp hy
  exact div_nonneg (hrk r i t s) (Nat.cast_nonneg _)

/-- Characterisation of the objective term list. -/
lemma mem_avgrisk (P : Inst) (q : (ℕ × ℕ) × ℚ) :
    q ∈ avgrisk P ↔ q.1.1 < P.I ∧ q.1.2 ≤ P.smax_i q.1.1
      ∧ 0 < r_i_s P q.1.1 q.1.2 ∧ q.2 = r_i_s P q.1.1 q.1.2 := by
  obtain ⟨⟨i, s⟩, w⟩ := q
  unfold avgrisk
  simp only [List.mem_flatMap, List.mem_filterMap, List.mem_range]
  constructor
  · rintro ⟨i', hi', s', hs', hif⟩
    split at hif
    · rw [Option.some.injEq, Prod.mk.injEq, Prod.mk.injEq] at hif
      obtain ⟨⟨rfl, rfl⟩, rfl⟩ := hif
      exact ⟨hi', by omega, by assumption, rfl⟩
    · cases hif
  · rintro ⟨hi, hs, hp, rfl⟩
    exact ⟨i, hi, s, by omega, by rw [if_pos hp]⟩

/-- C1 (functional_correctness): for every startable intervention `i` and
feasible start `s ≤ maxStart[i]` (with `maxStart[i] < T`), the objective
coefficient of `x[i][s]` equals the spec's
`riskContribution[i][s] = Σ_{t=s}^{min(s+duration, T−1)} Σ_r risk/R[t]`,
a term for `(i, s)` is in the objective exactly when that contribution is
non-zero, the coefficient of any present term is that contribution, and the
published metric recomputed after solving equals the sum of the active
variables' contributions divided by `T` — the division by `T` happening only
at evaluation time, never inside the per-term coefficients. -/
theorem objective_risk_coefficients (P : Inst) (result : ℕ → ℕ → ℚ)
    (hrk : ∀ r i t s, 0 ≤ P.rk_r_i_t_s r i t s)
    (hres : ∀ i s, result i s = 0 ∨ result i s = 1) :
    (∀ i s, i < P.I → s ≤ P.smax_i i → P.smax_i i < P.T →
        (r_i_s P i s = riskContributionSpec P i s
          ∧ (((i, s), r_i_s P i s) ∈ avgrisk P ↔ r_i_s P i s ≠ 0)
          ∧ ∀ w, ((i, s), w) ∈ avgrisk P → w = r_i_s P i s))
      ∧ avgRiskFinal P result = activeContribSum P result / (P.T : ℚ) := by
  constructor
  · intro i s hi hs hT
    refine ⟨?_, ?_, ?_⟩
    · unfold r_i_s riskContributionSpec
      have hrange : min (s + P.d_i_s i s + 1) P.T - s
          = min (s + P.d_i_s i s) (P.T - 1) + 1 - s := by omega
      rw [hrange]
    · rw [mem_avgrisk]
      constructor
      · rintro ⟨_, _, hp, _⟩
        exact ne_of_gt hp
      · intro hne
        have hp : 0 < r_i_s P i s :=
          lt_of_le_of_ne (r_i_s_nonneg P hrk i s) (Ne.symm hne)
        exact ⟨hi, hs, hp, rfl⟩
    · intro w hw
      rw [mem_avgrisk] at hw
      exact hw.2.2.2
  · have hlist : riskfactors P result
        = (List.range P.I).flatMap (fun i =>
            (List.range (P.smax_i i + 1)).map (fun s =>
              if result i s = 1 then r_i_s P i s else 0)) := by
      unfold riskfactors
      rw [List.flatMap_def, List.flatMap_def]
      apply congrArg List.flatten
      apply List.map_congr_left
      intro i _
      apply List.map_congr_left
      intro s _
      rcases hres i s with h | h
      · rw [h, mul_zero, if_neg (by norm_num : ¬ ((0 : ℚ) = 1))]
      · rw [h, mul_one, if_pos rfl]
    unfold avgRiskFinal activeContribSum
    rw [hlist]

/-- A tiny instance on which the C1 statement is evaluated: one intervention,
two time steps, unit risks and two scenarios everywhere. -/
def instW1 : Inst :=
  { I := 1, C := 0, T := 2, smax_i := fun _ => 1, d_i_s := fun _ _ => 1,
    dmax_i := fun _ => 1, wl_i_c_t_s := fun _ _ _ _ => 0,
    rk_r_i_t_s := fun _ _ _ _ => 1, R_t := fun _ => 2,
    rmin_c_t := fun _ _ => 0, rmax_c_t := fun _ _ => 0 }

/-- Witness for C1 at a concrete instance and the all-ones assignment. -/
theorem objective_risk_coefficients_witness :
    r_i_s instW1 0 0 = riskContributionSpec instW1 0 0
      ∧ (((0, 0), r_i_s instW1 0 0) ∈ avgrisk instW1 ↔ r_i_s instW1 0 0 ≠ 0)
      ∧ avgRiskFinal instW1 (fun _ _ => 1)
          = activeContribSum instW1 (fun _ _ => 1) / (instW1.T : ℚ) := by
  have h := objective_risk_coefficients instW1 (fun _ _ => 1)
    (fun _ _ _ _ => zero_le_one) (fun _ _ => Or.inr rfl)
  exact ⟨(h.1 0 0 (by decide) (by decide) (by decide)).1,
    (h.1 0 0 (by decide) (by decide) (by decide)).2.1, h.2⟩

/-! ## Claim C2: resource-bound constraint emission -/

/-- Characterisation of the contributing `(i, s)` pairs at `(c, t)`. -/
lemma mem_cons_42 (P : Inst) (c t : ℕ) (p : ℕ × ℕ) :
    p ∈ cons_42 P c t ↔
      p.1 < P.I ∧ p.2 ≤ min t (P.smax_i p.1) ∧ 0 < P.wl_i_c_t_s p.1 c t p.2 := by
  obtain ⟨i, s⟩ := p
  unfold cons_42
  simp only [List.mem_flatMap, List.mem_filterMap, List.mem_range]
  constructor
  · rintro ⟨i', hi', s', hs', hif⟩
    split at hif
    · rw [Option.some.injEq, Prod.mk.injEq] at hif
      obtain ⟨rfl, rfl⟩ := hif
      exact ⟨hi', by omega, by assumption⟩
    · cases hif
  · rintro ⟨hi, hs, hw⟩
    exact ⟨i, hi, s, by omega, by rw [if_pos hw]⟩

/-- The list `cons` is non-empty exactly when some pair can contribute workload. -/
lemma cons_42_ne_nil_iff (P : Inst) (c t : ℕ) :
    cons_42 P c t ≠ [] ↔
      ∃ i s, i < P.I ∧ s ≤ min t (P.smax_i i) ∧ 0 < P.wl_i_c_t_s i c t s := by
  rw [Ne, List.eq_nil_iff_forall_not_mem]
  push_neg
  constructor
  · rintro ⟨p, hp⟩
    rw [mem_cons_42] at hp
    exact ⟨p.1, p.2, hp⟩
  · rintro ⟨i, s, h⟩
    exact ⟨(i, s), (mem_cons_42 P c t (i, s)).mpr h⟩

/-- Characterisation of the emitted resource constraints. -/
lemma mem_constraints_42 (P : Inst) (rc : RCons) :
    rc ∈ constraints_42 P ↔
      rc.c < P.C ∧ rc.t < P.T ∧ cons_42 P rc.c rc.t ≠ [] ∧
        ((rc.kind = RCKind.lower ∧ 0 < P.rmin_c_t rc.c rc.t
            ∧ rc.rhs = P.rmin_c_t rc.c rc.t)
          ∨ (rc.kind = RCKind.upper ∧ P.rmax_c_t rc.c rc.t < totwl P rc.c rc.t
              ∧ rc.rhs = P.rmax_c_t rc.c rc.t)) := by
  obtain ⟨k, c, t, rhs⟩ := rc
  unfold constraints_42
  simp only [List.mem_flatMap, List.mem_range]
  constructor
  · rintro ⟨c', hc', t', ht', hmem⟩
    by_cases hne : cons_42 P c' t' ≠ []
    · rw [if_pos hne, List.mem_append] at hmem
      rcases hmem with hmem | hmem
      · by_cases hmin : 0 < P.rmin_c_t c' t'
        · rw [if_pos hmin, List.mem_singleton, RCons.mk.injEq] at hmem
          obtain ⟨rfl, rfl, rfl, rfl⟩ := hmem
          exact ⟨hc', ht', hne, Or.inl ⟨rfl, hmin, rfl⟩⟩
        · rw [if_neg hmin] at hmem
          exact absurd hmem (List.not_mem_nil _)
      · by_cases hmax : P.rmax_c_t c' t' < totwl P c' t'
        · rw [if_pos hmax, List.mem_singleton, RCons.mk.injEq] at hmem
          obtain ⟨rfl, rfl, rfl, rfl⟩ := hmem
          exact ⟨hc', ht', hne, Or.inr ⟨rfl, hmax, rfl⟩⟩
        · rw [if_neg hmax] at hmem
          exact absurd hmem (List.not_mem_nil _)
    · rw [if_neg hne] at hmem
      exact absurd hmem (List.not_mem_nil _)
  · rintro ⟨hc, ht, hne, hcase⟩
    refine ⟨c, hc, t, ht, ?_⟩
    rw [if_pos hne, List.mem_append]
    rcases hcase with ⟨hk, hmin, hrhs⟩ | ⟨hk, hmax, hrhs⟩
    · left
      rw [if_pos hmin, List.mem_singleton, RCons.mk.injEq]
      exact ⟨hk, rfl, rfl, hrhs⟩
    · right
      rw [if_pos hmax, List.mem_singleton, RCons.mk.injEq]
      exact ⟨hk, rfl, rfl, hrhs⟩

/-- Characterisation of the no-possible-workload warnings. -/
lemma mem_warnings_42 (P : Inst) (c t : ℕ) :
    (c, t) ∈ warnings_42 P ↔
      c < P.C ∧ t < P.T ∧ cons_42 P c t = [] ∧ 0 < P.rmin_c_t c t := by
  unfold warnings_42
  simp only [List.mem_flatMap, List.mem_range]
  constructor
  · rintro ⟨c', hc', t', ht', hmem⟩
    split at hmem
    · rw [List.mem_singleton, Prod.mk.injEq] at hmem
      obtain ⟨rfl, rfl⟩ := hmem
      have h := by assumption
      exact ⟨hc', ht', h.1, h.2⟩
    · exact absurd hmem (List.not_mem_nil _)
  · rintro ⟨hc, ht, hnil, hmin⟩
    refine ⟨c, hc, t, ht, ?_⟩
    rw [if_pos ⟨hnil, hmin⟩, List.mem_singleton]

/-- With non-negative workloads the sum over the contributing pairs equals
the sum over all candidate `(i, s)` pairs. -/
lemma contribSum_eq_totwl (P : Inst) (c t : ℕ)
    (hwl : ∀ i s, 0 ≤ P.wl_i_c_t_s i c t s) : contribSum P c t = totwl P c t := by
  unfold contribSum totwl cons_42
  rw [List.map_flatMap, sum_flatMap_eq, sum_flatMap_eq]
  apply congrArg List.sum
  apply List.map_congr_left
  intro i _
  have hfeq : (fun s => if 0 < P.wl_i_c_t_s i c t s then some (i, s) else none)
      = fun s => (if 0 < P.wl_i_c_t_s i c t s then some s else none).map (fun s => (i, s)) := by
    funext s
    by_cases h : 0 < P.wl_i_c_t_s i c t s <;> simp [h]
  rw [hfeq, ← List.map_filterMap, List.map_map]
  have hcomp : ((fun p : ℕ × ℕ => P.wl_i_c_t_s p.1 c t p.2) ∘ (fun s => (i, s)))
      = fun s => P.wl_i_c_t_s i c t s := rfl
  rw [hcomp]
  exact sum_filterMap_pos _ (fun a _ => hwl i a)

/-- C2 (functional_correctness): at every `(c, t)` with at least one
contributing pair (`workload > 0` with `s ≤ min(t, smax)`), the lower-bound
constraint is emitted iff `rmin_c_t > 0` and always with right-hand side
`rmin_c_t`, and the upper-bound constraint is emitted iff the sum of all
possible contributing workloads exceeds `rmax_c_t` (that sum coinciding with
the code's sum over every candidate start); at a `(c, t)` with no possible
contributing pair, a warning is recorded iff `rmin_c_t > 0`, no constraint
is emitted there, and construction continues. -/
theorem resource_constraint_emission (P : Inst) (c t : ℕ) (hc : c < P.C) (ht : t < P.T)
    (hwl : ∀ i s, 0 ≤ P.wl_i_c_t_s i c t s) :
    ((∃ i s, i < P.I ∧ s ≤ min t (P.smax_i i) ∧ 0 < P.wl_i_c_t_s i c t s) →
        (((∃ rhs, RCons.mk RCKind.lower c t rhs ∈ constraints_42 P) ↔ 0 < P.rmin_c_t c t)
          ∧ (∀ rhs, RCons.mk RCKind.lower c t rhs ∈ constraints_42 P → rhs = P.rmin_c_t c t)
          ∧ ((∃ rhs, RCons.mk RCKind.upper c t rhs ∈ constraints_42 P)
              ↔ P.rmax_c_t c t < totwl P c t)
          ∧ contribSum P c t = totwl P c t))
      ∧ ((¬ ∃ i s, i < P.I ∧ s ≤ min t (P.smax_i i) ∧ 0 < P.wl_i_c_t_s i c t s) →
          (((c, t) ∈ warnings_42 P ↔ 0 < P.rmin_c_t c t)
            ∧ ∀ rc ∈ constraints_42 P, rc.c = c → rc.t = t → False)) := by
  constructor
  · intro hex
    have hne : cons_42 P c t ≠ [] := (cons_42_ne_nil_iff P c t).mpr hex
    refine ⟨?_, ?_, ?_, contribSum_eq_totwl P c t hwl⟩
    · constructor
      · rintro ⟨rhs, hmem⟩
        rw [mem_constraints_42] at hmem
        rcases hmem.2.2.2 with ⟨_, hmin, _⟩ | ⟨hk, _, _⟩
        · exact hmin
        · cases hk
      · intro hmin
        exact ⟨P.rmin_c_t c t,
          (mem_constraints_42 P ⟨RCKind.lower, c, t, P.rmin_c_t c t⟩).mpr
            ⟨hc, ht, hne, Or.inl ⟨rfl, hmin, rfl⟩⟩⟩
    · intro rhs hmem
      rw [mem_constraints_42] at hmem
      rcases hmem.2.2.2 with ⟨_, _, hrhs⟩ | ⟨hk, _, _⟩
      · exact hrhs
      · cases hk
    · constructor
      · rintro ⟨rhs, hmem⟩
        rw [mem_constraints_42] at hmem
        rcases hmem.2.2.2 with ⟨hk, _, _⟩ | ⟨_, hmax, _⟩
        · cases hk
        · exact hmax
      · intro hmax
        exact ⟨P.rmax_c_t c t,
          (mem_constraints_42 P ⟨RCKind.upper, c, t, P.rmax_c_t c t⟩).mpr
            ⟨hc, ht, hne, Or.inr ⟨rfl, hmax, rfl⟩⟩⟩
  · intro hnex
    have hnil : cons_42 P c t = [] := by
      by_contra hne
      exact hnex ((cons_42_ne_nil_iff P c t).mp hne)
    constructor
    · rw [mem_warnings_42]
      constructor
      · rintro ⟨_, _, _, hmin⟩
        exact hmin
      · intro hmin
        exact ⟨hc, ht, hnil, hmin⟩
    · intro rc hmem hrc hrt
      rw [mem_constraints_42] at hmem
      apply hmem.2.2.1
      rw [hrc, hrt]
      exact hnil

/-- A tiny instance with one resource, one time step, unit workloads,
`rmin = 1` and `rmax = 0`, on which C2 is evaluated. -/
def instW2 : Inst :=
  { I := 1, C := 1, T := 1, smax_i := fun _ => 0, d_i_s := fun _ _ => 1,
    dmax_i := fun _ => 1, wl_i_c_t_s := fun _ _ _ _ => 1,
    rk_r_i_t_s := fun _ _ _ _ => 0, R_t := fun _ => 0,
    rmin_c_t := fun _ _ => 1, rmax_c_t := fun _ _ => 0 }

/-- Witness for C2 at the concrete instance. -/
theorem resource_constraint_emission_witness :
    contribSum instW2 0 0 = totwl instW2 0 0
      ∧ ((∃ rhs, RCons.mk RCKind.lower 0 0 rhs ∈ constraints_42 instW2)
          ↔ 0 < instW2.rmin_c_t 0 0) := by
  have h := (resource_constraint_emission instW2 0 0 (by decide) (by decide)
      (fun _ _ => zero_le_one)).1 ⟨0, 0, by decide, by decide, by decide⟩
  exact ⟨h.2.2.2, h.1⟩

/-! ## Claim C6: solution decoding -/

/-- A two-start instance used to evaluate the decoder. -/
def instC6 : Inst :=
  { I := 1, C := 0, T := 2, smax_i := fun _ => 1, d_i_s := fun _ _ => 1,
    dmax_i := fun _ => 1, wl_i_c_t_s := fun _ _ _ _ => 0,
    rk_r_i_t_s := fun _ _ _ _ => 0, R_t := fun _ => 0,
    rmin_c_t := fun _ _ => 0, rmax_c_t := fun _ _ => 0 }

/-- C6 counterexample (closed): the decoder contains no integrity check at
all.  On the all-zero assignment — intervention 0 has *zero* active starts —
decoding succeeds and returns the empty list (no entry for the
intervention, no `IntegrityError`); on the all-one assignment — intervention
0 has *two* active starts — decoding succeeds and returns two entries.  Both
contradict the claim that decoding fails with `IntegrityError`. -/
theorem decode_no_integrity_check :
    output instC6 ["Alpha"] [10, 20] (fun _ _ => 0) = []
      ∧ output instC6 ["Alpha"] [10, 20] (fun _ _ => 1) = [("Alpha", 10), ("Alpha", 20)]
      ∧ instC6.I = 1 := by
  decide

/-- C6 as amended: decoding never fails — it emits one
`(interventionName, time[s])` pair for each `(i, s)` with `x[i][s] = 1`, so
an intervention with zero active starts is silently omitted and one with
several active starts yields several pairs; when every intervention has
exactly one active start (selected by `sel`), decoding returns exactly one
pair per intervention, using exactly the one `s` per intervention with
value 1. -/
theorem decode_unique_start (P : Inst) (intv : List String) (time : List Int)
    (result : ℕ → ℕ → ℚ) (sel : ℕ → ℕ)
    (hsel : ∀ i, i < P.I → sel i ≤ P.smax_i i ∧ result i (sel i) = 1
        ∧ ∀ s, s ≤ P.smax_i i → result i s = 1 → s = sel i) :
    output P intv time result
      = (List.range P.I).map (fun i => (intv.getD i "", time.getD (sel i) 0)) := by
  unfold output
  apply flatMap_eq_map_of_single
  intro i hi
  rw [List.mem_range] at hi
  obtain ⟨h1, h2, h3⟩ := hsel i hi
  refine filterMap_eq_single _ _ (sel i) _ ?_ ?_ ?_ ?_
  · rw [List.mem_range]
    omega
  · rw [if_pos h2]
  · intro s hs hne
    rw [List.mem_range] at hs
    rw [if_neg]
    intro hr1
    exact hne (h3 s (by omega) hr1)
  · exact List.nodup_range _

/-- The assignment activating start 0 of every intervention. -/
def resC6 : ℕ → ℕ → ℚ :=
  fun _ s => if s = 0 then 1 else 0

/-- Witness for the amended C6 at a concrete one-active-start assignment. -/
theorem decode_unique_start_witness :
    output instC6 ["Alpha"] [10, 20] resC6
      = (List.range instC6.I).map
          (fun i => (["Alpha"].getD i "", [10, 20].getD ((fun _ => 0) i) 0)) :=
  decode_unique_start instC6 ["Alpha"] [10, 20] resC6 (fun _ => 0) (by decide)
